import Mathlib

/-!
Verification of the merge/normalize/filter/classify logic of `app.py`
(sr-event-list): a shallow embedding of the relevant functions together
with theorems about the behaviour that the specification claims.

Modelling conventions:
* Python values that may be `None`, `int`, `float` or `str` are embedded
  as the inductive type `PyVal`.  A non-integral `float` carries its
  Python `repr` string, since binary floating-point rendering is outside
  the scope of this development; every claim only exercises integral
  floats, for which `int(val)` is exact.
* `str.strip()` is modelled by `stripChars` (ASCII whitespace; Python
  additionally strips rarer Unicode whitespace, which no claim touches).
* `float(s)` applied to a decimal integer string is modelled faithfully
  as correctly-rounded (round-to-nearest, ties-to-even) conversion to an
  IEEE-754 binary64 value, `pyFloatOfNat`; conversion that overflows to
  infinity is `Option.none` (Python's subsequent `int(inf)` raises
  `OverflowError`, which `normalize_event_id_val` catches).
-/

set_option linter.unusedVariables false
set_option maxRecDepth 8000
set_option exponentiation.threshold 1030

namespace SrEventList

/-- Embedding of the Python values that can reach `normalize_event_id_val`:
`None`, an `int`, a `float` whose value is integral (`is_integer()` true,
carrying that exact integer), a non-integral `float` (carrying its Python
`repr`), or a `str`. -/
inductive PyVal where
  | vNone : PyVal
  | vInt (n : Int) : PyVal
  | vFloatInt (n : Int) : PyVal
  | vFloatStr (r : String) : PyVal
  | vStr (s : String) : PyVal
deriving DecidableEq, Repr

/-- Python `str.strip()` on a character list: drop whitespace from both ends. -/
def stripChars (l : List Char) : List Char :=
  ((l.dropWhile Char.isWhitespace).reverse.dropWhile Char.isWhitespace).reverse

/-- Python `str.strip()` on a string. -/
def pyStrip (s : String) : String :=
  String.mk (stripChars s.data)

/-- The regular expression `^\d+(\.0+)?$` from `normalize_event_id_val`:
one or more digits, optionally followed by a dot and one or more zeros
(`\d` is modelled as the ASCII digits; Python's Unicode digit classes are
outside this embedding, as is Unicode whitespace in `strip`). -/
def matchesIntRe (l : List Char) : Bool :=
  let digits := l.takeWhile Char.isDigit
  let rest := l.dropWhile Char.isDigit
  decide (digits ≠ []) &&
    (decide (rest = []) ||
      (decide (rest.head? = some '.') && decide (rest.tail ≠ []) &&
        rest.tail.all (fun c => c = '0')))

/-- Numeric value of a digit string (most significant digit first). -/
def natOfDigits (l : List Char) : Nat :=
  l.foldl (fun a c => 10 * a + (c.toNat - '0'.toNat)) 0

/-- Number of binary digits of `n` (0 for 0), computed with explicit fuel so
that it reduces by kernel computation. -/
def bitLenAux : Nat → Nat → Nat
  | 0, _ => 0
  | fuel + 1, n => if n = 0 then 0 else bitLenAux fuel (n / 2) + 1

/-- Number of binary digits of `n`; the fuel 4100 covers every number with
at most 4100 bits, far beyond anything rounded here. -/
def bitLen (n : Nat) : Nat := bitLenAux 4100 n

/-- Correctly rounded conversion of a natural number to an IEEE-754 binary64
value (round to nearest, ties to even), returning the exact integer value of
the resulting double, or `none` if the conversion overflows to infinity.
This models Python's `float(s)` on a decimal integer string. -/
def pyFloatOfNat (n : Nat) : Option Nat :=
  if n < 2 ^ 53 then some n
  else
    let b := bitLen n - 1
    let k := b - 52
    let q := n / 2 ^ k
    let r := n % 2 ^ k
    let q2 := if 2 * r < 2 ^ k then q
      else if 2 ^ k < 2 * r then q + 1
      else if q % 2 = 0 then q else q + 1
    let v := q2 * 2 ^ k
    if v < 2 ^ 1024 then some v else none

/-- Embedding of `normalize_event_id_val` (`app.py`, lines 30-59): absorbs
representation differences of `event_id` (int, float, `"123.0"`-style
strings) and returns a canonical string key, or `none` for an invalid id.
The string branch mirrors the source exactly: strip, test the regex
`^\d+(\.0+)?$`, on a match return `str(int(float(s)))` (where `float`
rounds to binary64 and `int(inf)` raises `OverflowError`, caught by the
`except` clause which returns `str(val).strip()`), otherwise map the empty
string to `None` and any other string to its stripped form. -/
def normalize_event_id_val : PyVal → Option String
  | PyVal.vNone => none
  | PyVal.vInt n => some (toString n)
  | PyVal.vFloatInt n => some (toString n)
  | PyVal.vFloatStr r => some (pyStrip r)
  | PyVal.vStr s0 =>
    let l := stripChars s0.data
    if matchesIntRe l then
      match pyFloatOfNat (natOfDigits (l.takeWhile Char.isDigit)) with
      | some m => some (toString m)
      | none => some (String.mk l)
    else if l = [] then none
    else some (String.mk l)

/-- Embedding of `get_duration_category` (`app.py`, lines 318-332): classify
`ended_at - started_at` seconds into a labelled bucket.  `timedelta`
comparison on integral seconds is exact integer comparison, and
`timedelta(days=d)` is `d * 86400` seconds. -/
def get_duration_category (start_ts end_ts : Int) : String :=
  let duration := end_ts - start_ts
  if duration ≤ 3 * 86400 then "3日以内"
  else if duration ≤ 7 * 86400 then "1週間"
  else if duration ≤ 10 * 86400 then "10日"
  else if duration ≤ 14 * 86400 then "2週間"
  else "その他"

/-! ## Event records and the merge performed in `main`

An event dictionary is embedded as a structure whose fields are `Option`s
(`none` = key absent from the dict; a key present with value `None` behaves
like an absent key in every code path the claims exercise, and is folded
into `none` as well).  `event_id` is kept as a `PyVal` since its shape
varies across the two sources; the opaque passthrough fields are carried as
optional strings. -/

structure Event where
  event_id : PyVal
  is_event_block : Option String
  is_entry_scope_inner : Option Bool
  event_name : Option String
  image_m : Option String
  started_at : Option Int
  ended_at : Option Int
  event_url_key : Option String
  show_ranking : Option String
deriving DecidableEq, Repr

/-- The normalized key of an event, `normalize_event_id_val(event.get('event_id'))`. -/
def normKey (e : Event) : Option String :=
  normalize_event_id_val e.event_id

/-- `event['event_id'] = eid`: overwrite the id with its normalized string form. -/
def setEid (e : Event) (k : String) : Event :=
  { e with event_id := PyVal.vStr k }

/-- A Python `dict` keyed by strings, as an insertion-ordered association
list whose keys are pairwise distinct (the invariant holds for every dict
built below, and is proved where needed). -/
abbrev EvDict := List (String × Event)

/-- The keys of the dict, in insertion order. -/
def dictKeys (d : EvDict) : List String :=
  d.map Prod.fst

/-- `k in d` for a Python dict. -/
def dictMem (d : EvDict) (k : String) : Bool :=
  d.any (fun p => p.1 = k)

/-- `d[k]` lookup (as an `Option`). -/
def dictLookup (d : EvDict) (k : String) : Option Event :=
  (d.find? (fun p => p.1 = k)).map Prod.snd

/-- `d[k] = v` for a Python dict: replace in place if the key exists,
otherwise append at the end. -/
def dictInsert (d : EvDict) (k : String) (v : Event) : EvDict :=
  if dictMem d k then d.map (fun p => if p.1 = k then (k, v) else p)
  else d ++ [(k, v)]

/-- One step of the live-fetch loop in `main` (`app.py`, lines 450-459):
normalize the id, skip the event if it is invalid, otherwise store the event
(with its id overwritten by the normalized form) under the normalized key,
overwriting any previous entry. -/
def insertLive (d : EvDict) (e : Event) : EvDict :=
  match normalize_event_id_val e.event_id with
  | none => d
  | some eid => dictInsert d eid (setEid e eid)

/-- One step of the archive loop in `main` (`app.py`, lines 467-475):
normalize the id, skip if invalid, and only add the event when no live (or
earlier archive) event already occupies the key. -/
def insertArchive (d : EvDict) (e : Event) : EvDict :=
  match normalize_event_id_val e.event_id with
  | none => d
  | some eid =>
    if dictMem d eid then d else d ++ [(eid, setEid e eid)]

/-- The merged `unique_events_dict` built in `main` (`app.py`, lines
437-478): all live events are inserted first, then the archive events. -/
def mergeEvents (live archive : List Event) : EvDict :=
  archive.foldl insertArchive (live.foldl insertLive [])

/-- The last event of `l` whose id normalizes to `k` (the winner of the
live-insertion loop for key `k`). -/
def lastMatch (k : String) : List Event → Option Event
  | [] => none
  | e :: rest =>
    match lastMatch k rest with
    | some r => some r
    | none => if normalize_event_id_val e.event_id = some k then some e else none

/-! ## The filter pipeline of `main` (`app.py`, lines 654-686)

The four sidebar dimensions are embedded as selected-value lists: start
dates and end dates as civil-date day numbers in JST, duration buckets as
labels, audience scope as booleans.  An empty list means the dimension is
inactive.  Date conversion `datetime.fromtimestamp(ts, JST).date()` is the
civil date at UTC+9 (JST has no daylight-saving time), identified with its
day number `(ts + 9*3600) fdiv 86400`.  The duration branch indexes
`e['started_at']` and `e['ended_at']` without a presence check, so a
surviving record lacking either key raises a `KeyError`; the pipeline is
therefore embedded as an `Except`, with `Except.error ()` standing for the
uncaught exception. -/

/-- The JST civil date (as a day number since the epoch) of a Unix timestamp. -/
def jstDate (ts : Int) : Int :=
  (ts + 9 * 3600).fdiv 86400

/-- `'started_at' in e and datetime.fromtimestamp(e['started_at'], JST).date()
in selected_dates_set` (`app.py`, lines 659-662). -/
def matchesStartDate (sel : List Int) (e : Event) : Bool :=
  match e.started_at with
  | some t => decide (jstDate t ∈ sel)
  | none => false

/-- `'ended_at' in e and datetime.fromtimestamp(e['ended_at'], JST).date()
in selected_dates_set` (`app.py`, lines 668-671). -/
def matchesEndDate (sel : List Int) (e : Event) : Bool :=
  match e.ended_at with
  | some t => decide (jstDate t ∈ sel)
  | none => false

/-- `e.get('is_entry_scope_inner') in selected_target_values` (`app.py`,
lines 683-686); a missing key yields `None`, which is in no set of booleans. -/
def matchesTarget (sel : List Bool) (e : Event) : Bool :=
  match e.is_entry_scope_inner with
  | some b => decide (b ∈ sel)
  | none => false

/-- The result of the start-date and end-date filter steps (`app.py`, lines
656-672): each is applied only when its selection is non-empty. -/
def dateFiltered (events : List Event) (selStart selEnd : List Int) : List Event :=
  let f1 := if selStart.isEmpty then events else events.filter (matchesStartDate selStart)
  if selEnd.isEmpty then f1 else f1.filter (matchesEndDate selEnd)

/-- The duration filter's condition
`get_duration_category(e['started_at'], e['ended_at']) in selected_durations`,
for a record that has both timestamps. -/
def durMatch (selDur : List String) (e : Event) : Bool :=
  match e.started_at, e.ended_at with
  | some s, some en => decide (get_duration_category s en ∈ selDur)
  | _, _ => false

/-- The duration filter step (`app.py`, lines 674-678): the comprehension
evaluates `get_duration_category(e['started_at'], e['ended_at'])` for every
surviving record, raising a `KeyError` (embedded as `Except.error ()`) as
soon as a record lacks either timestamp. -/
def durationStep (selDur : List String) (es : List Event) : Except Unit (List Event) :=
  if es.all (fun e => e.started_at.isSome && e.ended_at.isSome) then
    Except.ok (es.filter (durMatch selDur))
  else Except.error ()

/-- The whole filter pipeline of `main` (`app.py`, lines 654-686): start-date
and end-date filters, then the duration filter (which can raise), then the
audience-scope filter. -/
def applyFilters (events : List Event) (selStart selEnd : List Int)
    (selDur : List String) (selTar : List Bool) : Except Unit (List Event) :=
  let f2 := dateFiltered events selStart selEnd
  match (if selDur.isEmpty then Except.ok f2 else durationStep selDur f2) with
  | Except.error e => Except.error e
  | Except.ok f3 =>
    Except.ok (if selTar.isEmpty then f3 else f3.filter (matchesTarget selTar))

/-! ## Generic keyed deduplication

`pandas.DataFrame.drop_duplicates(subset=[key], keep='last')` keeps, for
each key, the last row bearing it, at that row's original position;
`keep='first'` (the default) keeps the first such row.  Both preserve the
relative order of the survivors. -/

/-- `drop_duplicates(keep='last')`: a row survives iff no later row has the
same key. -/
def dedupLast {α β : Type} [DecidableEq β] (key : α → β) : List α → List α
  | [] => []
  | a :: rest =>
    if rest.any (fun b => decide (key b = key a)) then dedupLast key rest
    else a :: dedupLast key rest

/-- `drop_duplicates(keep='first')`: a row survives iff no earlier row has
the same key (`seen` carries the keys already encountered). -/
def dedupFirstAux {α β : Type} [DecidableEq β] (key : α → β) (seen : List β) :
    List α → List α
  | [] => []
  | a :: rest =>
    if key a ∈ seen then dedupFirstAux key seen rest
    else a :: dedupFirstAux key (key a :: seen) rest

/-- `drop_duplicates(keep='first')` on a whole list. -/
def dedupFirst {α β : Type} [DecidableEq β] (key : α → β) (l : List α) : List α :=
  dedupFirstAux key [] l

/-- The last element of `l` whose key is `k`. -/
def lastWith {α β : Type} [DecidableEq β] (key : α → β) (k : β) : List α → Option α
  | [] => none
  | a :: rest =>
    match lastWith key k rest with
    | some r => some r
    | none => if key a = k then some a else none

/-- The first element of `l` whose key is `k`. -/
def firstWith {α β : Type} [DecidableEq β] (key : α → β) (k : β) : List α → Option α
  | [] => none
  | a :: rest => if key a = k then some a else firstWith key k rest

/-! ## The archive reader `get_past_events_from_files` (`app.py`, lines 205-256)

A downloaded CSV is read with `dtype=str`: each cell is embedded as an
`Option String` (`none` = a missing value, pandas `NaN`); the identifier
cell is a `PyVal` so that the normalizer applies to it unchanged.  The six
columns that the claimed pipeline never inspects are collapsed into one
opaque `rest` string.  `pd.to_numeric(errors='coerce')` is modelled by
`toNumericCell` over plain decimal literals (sign, digits, optional
fraction), valued in `ℚ`; a cell it cannot parse coerces to `NaN` and the
row is dropped by the subsequent `dropna`, exactly as in the source
(exponent notation and non-finite floats are outside this embedding). -/

/-- A raw row of the archive CSV, as read with `dtype=str`. -/
structure CsvRow where
  event_id : PyVal
  is_entry_scope_inner : Option String
  started_at : Option String
  ended_at : Option String
  rest : String
deriving DecidableEq, Repr

/-- A row after the coercions of `get_past_events_from_files`: boolean scope
flag, numeric timestamps, normalized string identifier. -/
structure ArchRecord where
  event_id : String
  is_entry_scope_inner : Bool
  started_at : Rat
  ended_at : Rat
  rest : String
deriving DecidableEq, Repr

/-- Parse a decimal literal (optional sign, digits, optional fractional
part) as a rational; `none` when the text is not numeric. -/
def parseNumChars (l : List Char) : Option Rat :=
  let sl : Int × List Char :=
    match l with
    | '+' :: t => (1, t)
    | '-' :: t => (-1, t)
    | _ => (1, l)
  let ip := sl.2.takeWhile Char.isDigit
  let rest := sl.2.dropWhile Char.isDigit
  match rest with
  | [] => if ip.isEmpty then none else some ((sl.1 * (natOfDigits ip : Int) : Int) : Rat)
  | '.' :: fp =>
    if fp.all Char.isDigit && (decide (ip ≠ []) || decide (fp ≠ [])) then
      some ((sl.1 : Rat) *
        ((natOfDigits ip : Rat) + (natOfDigits fp : Rat) / (10 : Rat) ^ fp.length))
    else none
  | _ => none

/-- `pd.to_numeric(cell, errors='coerce')` on one `dtype=str` cell. -/
def toNumericCell : Option String → Option Rat
  | none => none
  | some s => parseNumChars (stripChars s.data)

/-- `astype(str).str.lower().str.strip() == 'true'` (`app.py`, line 234);
a missing value stringifies to `"nan"` and compares unequal to `"true"`. -/
def coerceScope : Option String → Bool
  | none => false
  | some s => decide (String.mk (stripChars (s.data.map Char.toLower)) = "true")

/-- The rows surviving the coercion steps of `get_past_events_from_files`
(`app.py`, lines 234-239): both timestamps must be numeric (`to_numeric` +
`dropna`) and the identifier must normalize to a valid key (`apply` +
`dropna`); the two consecutive `dropna` calls are collapsed into one
`filterMap`, which yields the same list. -/
def goodRows (rows : List CsvRow) : List ArchRecord :=
  rows.filterMap fun r =>
    match toNumericCell r.started_at, toNumericCell r.ended_at,
        normalize_event_id_val r.event_id with
    | some s, some e, some k =>
      some ⟨k, coerceScope r.is_entry_scope_inner, s, e, r.rest⟩
    | _, _, _ => none

/-- Insert a record into a list kept sorted by `ended_at` descending. -/
def insertByEnd (r : ArchRecord) : List ArchRecord → List ArchRecord
  | [] => [r]
  | a :: t => if a.ended_at ≤ r.ended_at then r :: a :: t else a :: insertByEnd r t

/-- `sort_values(by="ended_at", ascending=False)` (`app.py`, line 247):
an insertion sort realising the same (descending) sortedness; the source
does not fix the relative order of ties. -/
def sortByEndDesc (l : List ArchRecord) : List ArchRecord :=
  l.foldr insertByEnd []

/-- Embedding of `get_past_events_from_files` (`app.py`, lines 205-256) on
an already-downloaded CSV: coerce and drop bad rows, deduplicate by
identifier keeping the last occurrence, keep only rows ended strictly
before `now`, and sort by `ended_at` descending. -/
def get_past_events_from_files (rows : List CsvRow) (now : Int) : List ArchRecord :=
  sortByEndDesc ((dedupLast ArchRecord.event_id (goodRows rows)).filter
    (fun r => decide (r.ended_at < (now : Rat))))

/-! ## The archive writer `update_archive_file` (`app.py`, lines 91-164)

A dataframe row is embedded as a pair: the `event_id` column after
`apply(normalize_event_id_val)` (possibly invalid for old rows, which are
not filtered), and the remaining row carried as an `Event` (the structure
holds exactly the nine archival fields the projection at lines 100-116
extracts, each via `e.get`, so the projection is the identity here and the
per-row `try/except` can never fire). -/

/-- One archive dataframe row: normalized `event_id` column plus the row. -/
abbrev ArchiveRow := Option String × Event

/-- The freshly fetched batch after lines 118-126: pair each event with its
normalized identifier, drop rows whose identifier is invalid (`dropna`),
and deduplicate keeping the first occurrence per identifier
(`drop_duplicates` with the default `keep='first'`). -/
def newBatch (new : List Event) : List ArchiveRow :=
  dedupFirst Prod.fst
    ((new.map (fun e => (normKey e, e))).filter (fun p => p.1.isSome))

/-- The old archive rows (`app.py`, lines 128-135): the downloaded CSV with
its identifier column normalized (no `dropna` here), or the empty table when
the remote archive is absent. -/
def oldRows (oldCsv : Option (List Event)) : List ArchiveRow :=
  match oldCsv with
  | some rows => rows.map (fun e => (normKey e, e))
  | none => []

/-- The merged archive (`app.py`, lines 137-140): concatenate old rows then
the new batch, and deduplicate by identifier keeping the last occurrence. -/
def mergedArchive (oldCsv : Option (List Event)) (new : List Event) : List ArchiveRow :=
  dedupLast Prod.fst (oldRows oldCsv ++ newBatch new)

/-- The observable outcome of `update_archive_file` (`app.py`, lines
91-156): `none` when no event was fetched (`new_df.empty`, line 119: the
function warns and returns without uploading), otherwise the uploaded
archive together with the `added_count` (`after_count - before_count`, an
integer that may be negative, line 142) and the `after_count`, both written
to the appended log line (line 150). -/
def update_archive_result (oldCsv : Option (List Event)) (new : List Event) :
    Option (List ArchiveRow × Int × Nat) :=
  if new.isEmpty then none
  else
    some (mergedArchive oldCsv new,
      ((mergedArchive oldCsv new).length : Int) - ((oldRows oldCsv).length : Int),
      (mergedArchive oldCsv new).length)

/-! ## The event fetcher `get_events` (`app.py`, lines 170-202) -/

/-- Outcome of one page request: a decoded page (the event list extracted
from the `'events'` or `'event_list'` key of the JSON object, defaulting to
`[]`), a transport/HTTP error (`requests.exceptions.RequestException`,
which `raise_for_status` also raises), or a JSON decode failure
(`ValueError`). -/
inductive PageResult where
  | ok (events : List Event) : PageResult
  | requestError : PageResult
  | decodeError : PageResult
deriving DecidableEq, Repr

/-- The events contributed by a page outcome (errors contribute nothing). -/
def pageEvents : PageResult → List Event
  | PageResult.ok es => es
  | PageResult.requestError => []
  | PageResult.decodeError => []

/-- `true` exactly when pagination continues past this page: the page
decoded and its event list is non-empty. -/
def okNonempty : PageResult → Bool
  | PageResult.ok es => decide (es ≠ [])
  | PageResult.requestError => false
  | PageResult.decodeError => false

/-- The inner pagination loop for one status (`app.py`, lines 178-201):
request pages starting at `page`, accumulate each non-empty page, stop on
the first empty page, on an error (keeping what was already accumulated),
or after `fuel` requests (`for _ in range(20)`). -/
def fetchPages (resp : Nat → PageResult) : Nat → Nat → List Event
  | 0, _ => []
  | fuel + 1, page =>
    match resp page with
    | PageResult.ok [] => []
    | PageResult.ok es => es ++ fetchPages resp (fuel) (page + 1)
    | PageResult.requestError => []
    | PageResult.decodeError => []

/-- Embedding of `get_events` (`app.py`, lines 170-202): for each status in
order, paginate from page 1 with a cap of 20 requests, extending one shared
accumulator; a failure for one status ends only that status's loop. -/
def get_events (statuses : List Nat) (resp : Nat → Nat → PageResult) : List Event :=
  statuses.foldl (fun acc s => acc ++ fetchPages (resp s) 20 1) []

/-! ## The room-count lookup `get_total_entries` (`app.py`, lines 260-278) -/

/-- Outcome of the room-list request: a transport exception during the
request, or a response with an HTTP status code and a body that either
decodes (carrying the optional `total_entries` field) or fails to decode. -/
inductive RoomListOutcome where
  | transportExc : RoomListOutcome
  | resp (status : Nat) (body : Except Unit (Option Int)) : RoomListOutcome

/-- The value `get_total_entries` returns: an integer count or the string
sentinel `"N/A"`. -/
inductive EntriesResult where
  | count (n : Int) : EntriesResult
  | na : EntriesResult
deriving DecidableEq, Repr

/-- Embedding of `get_total_entries` (`app.py`, lines 260-278): HTTP 404 is
the normal no-participants case, handled before `raise_for_status` and
yielding 0; any other 4xx/5xx status makes `raise_for_status` raise an
`HTTPError` (a `RequestException`), caught as `"N/A"`; a body that fails
to decode (`ValueError`) yields `"N/A"`; otherwise `data.get('total_entries', 0)`. -/
def get_total_entries : RoomListOutcome → EntriesResult
  | RoomListOutcome.transportExc => EntriesResult.na
  | RoomListOutcome.resp status body =>
    if status = 404 then EntriesResult.count 0
    else if 400 ≤ status ∧ status < 600 then EntriesResult.na
    else
      match body with
      | Except.error _ => EntriesResult.na
      | Except.ok t => EntriesResult.count (t.getD 0)

/-! ## Sample data used by the witnesses -/

/-- A live event (integer id 2, earlier in fetch order). -/
def wLive1 : Event :=
  ⟨PyVal.vInt 2, none, some false, some "live-old", none, some 100, some 200, some "u1", none⟩

/-- A live event whose id `"2.0"` also normalizes to `"2"` (later in fetch
order, so it wins inside the live source). -/
def wLive2 : Event :=
  ⟨PyVal.vStr "2.0", none, some true, some "live-new", none, some 150, some 250, some "u2", none⟩

/-- An archived event sharing identifier `"2"` with the live events. -/
def wArch2 : Event :=
  ⟨PyVal.vStr "2", none, some false, some "arch2", none, some 10, some 20, some "u3", none⟩

/-- An archived event with identifier `"3"` only. -/
def wArch3 : Event :=
  ⟨PyVal.vStr "3", none, some false, some "arch3", none, some 10, some 20, some "u4", none⟩

/-- An event lacking `started_at` (its dict has no such key). -/
def wNoStart : Event :=
  ⟨PyVal.vInt 1, none, none, some "nostart", none, none, some 0, some "u5", none⟩

/-- A fully populated event starting at the epoch. -/
def wFull : Event :=
  ⟨PyVal.vInt 5, none, some false, some "full", none, some 0, some 1000, some "u6", none⟩

/-- An old archive row with identifier `"2"`. -/
def wOld2 : Event :=
  ⟨PyVal.vStr "2", none, some false, some "old", none, some 1, some 2, some "u7", none⟩

/-- A second old archive row duplicating identifier `"2"`. -/
def wOld2b : Event :=
  ⟨PyVal.vStr "2", none, some false, some "old-b", none, some 3, some 4, some "u8", none⟩

/-- A freshly fetched event with identifier 2. -/
def wNew2 : Event :=
  ⟨PyVal.vInt 2, none, some true, some "new", none, some 5, some 6, some "u9", none⟩

/-- An archive CSV row with id `"1"`, timestamps 100 and 200. -/
def wRow1 : CsvRow := ⟨PyVal.vStr "1", some "true", some "100", some "200", "x"⟩

/-- A later archive CSV row that repeats id `"1"`, timestamps 150 and 250. -/
def wRow2 : CsvRow := ⟨PyVal.vStr "1", some "false", some "150", some "250", "y"⟩

/-- The coerced record of `wRow2`, the last occurrence of id `"1"`. -/
def wRec2 : ArchRecord := ⟨"1", false, 150, 250, "y"⟩

/-- A page oracle: page 1 holds one event, page 2 fails with a transport
error, everything later would be empty. -/
def wResp : Nat → Nat → PageResult := fun _ p =>
  if p = 1 then PageResult.ok [wFull]
  else if p = 2 then PageResult.requestError
  else PageResult.ok []

/-! ### Dictionary lemmas -/

theorem dictLookup_nil (k : String) : dictLookup [] k = none := rfl

theorem dictLookup_cons (p : String × Event) (d : EvDict) (k : String) :
    dictLookup (p :: d) k = if p.1 = k then some p.2 else dictLookup d k := by
  by_cases h : p.1 = k <;> simp [dictLookup, List.find?, h]

theorem dictLookup_eq_none_of_not_mem {d : EvDict} {k : String}
    (h : dictMem d k = false) : dictLookup d k = none := by
  induction d with
  | nil => rfl
  | cons p rest ih =>
    simp only [dictMem, List.any_cons, Bool.or_eq_false_iff, decide_eq_false_iff_not] at h
    rw [dictLookup_cons, if_neg h.1]
    exact ih h.2

theorem dictMem_iff_mem_keys {d : EvDict} {k : String} :
    dictMem d k = true ↔ k ∈ dictKeys d := by
  induction d with
  | nil => simp [dictMem, dictKeys]
  | cons p rest ih =>
    simp only [dictMem, dictKeys, List.any_cons, List.map_cons, List.mem_cons,
      Bool.or_eq_true, decide_eq_true_eq] at *
    constructor
    · rintro (h | h)
      · exact Or.inl h.symm
      · exact Or.inr (ih.mp h)
    · rintro (h | h)
      · exact Or.inl h.symm
      · exact Or.inr (ih.mpr h)

theorem dictLookup_isSome_of_mem {d : EvDict} {k : String}
    (h : dictMem d k = true) : (dictLookup d k).isSome := by
  induction d with
  | nil => simp [dictMem] at h
  | cons p rest ih =>
    simp only [dictMem, List.any_cons, Bool.or_eq_true, decide_eq_true_eq] at h
    rw [dictLookup_cons]
    by_cases hp : p.1 = k
    · simp [hp]
    · rcases h with h | h
      · exact absurd h hp
      · simpa [hp] using ih h

theorem dictLookup_append_left {d d2 : EvDict} {k : String}
    (h : (dictLookup d k).isSome) : dictLookup (d ++ d2) k = dictLookup d k := by
  induction d with
  | nil => simp [dictLookup] at h
  | cons p rest ih =>
    rw [List.cons_append, dictLookup_cons, dictLookup_cons]
    by_cases hp : p.1 = k
    · rw [if_pos hp, if_pos hp]
    · rw [if_neg hp, if_neg hp]
      rw [dictLookup_cons, if_neg hp] at h
      exact ih h

theorem dictLookup_append_right {d d2 : EvDict} {k : String}
    (h : dictMem d k = false) : dictLookup (d ++ d2) k = dictLookup d2 k := by
  induction d with
  | nil => rfl
  | cons p rest ih =>
    simp only [dictMem, List.any_cons, Bool.or_eq_false_iff, decide_eq_false_iff_not] at h
    rw [List.cons_append, dictLookup_cons, if_neg h.1]
    exact ih (by simp [dictMem, h.2])

theorem dictLookup_map_replace_self {k : String} {v : Event} :
    ∀ {d : EvDict}, dictMem d k = true →
      dictLookup (d.map (fun p => if p.1 = k then (k, v) else p)) k = some v := by
  intro d
  induction d with
  | nil => intro h; simp [dictMem] at h
  | cons p rest ih =>
    intro h
    by_cases hp : p.1 = k
    · simp only [List.map_cons, if_pos hp]
      rw [dictLookup_cons, if_pos rfl]
    · simp only [dictMem, List.any_cons, Bool.or_eq_true, decide_eq_true_eq] at h
      rcases h with h | h
      · exact absurd h hp
      · simp only [List.map_cons, if_neg hp]
        rw [dictLookup_cons, if_neg hp]
        exact ih h

theorem dictLookup_map_replace_other {k k2 : String} {v : Event} (h : k2 ≠ k) :
    ∀ (d : EvDict),
      dictLookup (d.map (fun p => if p.1 = k then (k, v) else p)) k2 = dictLookup d k2 := by
  intro d
  induction d with
  | nil => rfl
  | cons p rest ih =>
    by_cases hp : p.1 = k
    · simp only [List.map_cons, if_pos hp]
      rw [dictLookup_cons, dictLookup_cons, if_neg (fun hh => h hh.symm),
        if_neg (fun hh => h (hp ▸ hh).symm)]
      exact ih
    · simp only [List.map_cons, if_neg hp]
      rw [dictLookup_cons, dictLookup_cons]
      by_cases hp2 : p.1 = k2
      · rw [if_pos hp2, if_pos hp2]
      · rw [if_neg hp2, if_neg hp2]
        exact ih

theorem dictKeys_map_replace {k : String} {v : Event} :
    ∀ (d : EvDict), dictKeys (d.map (fun p => if p.1 = k then (k, v) else p)) = dictKeys d := by
  intro d
  induction d with
  | nil => rfl
  | cons p rest ih =>
    by_cases hp : p.1 = k
    · simp only [List.map_cons, if_pos hp, dictKeys, List.map_cons] at *
      rw [ih]
      simp [hp]
    · simp only [List.map_cons, if_neg hp, dictKeys, List.map_cons] at *
      rw [ih]

theorem dictLookup_insert_self (d : EvDict) (k : String) (v : Event) :
    dictLookup (dictInsert d k v) k = some v := by
  unfold dictInsert
  cases hm : dictMem d k with
  | false =>
    rw [if_neg (by simp [hm]), dictLookup_append_right hm, dictLookup_cons]
    simp
  | true =>
    rw [if_pos (by simp [hm])]
    exact dictLookup_map_replace_self hm

theorem dictLookup_insert_other {d : EvDict} {k k2 : String} {v : Event}
    (h : k2 ≠ k) : dictLookup (dictInsert d k v) k2 = dictLookup d k2 := by
  unfold dictInsert
  by_cases hm : dictMem d k
  · rw [if_pos hm]
    exact dictLookup_map_replace_other h d
  · rw [if_neg hm]
    cases hl : dictLookup d k2 with
    | some v2 => exact (dictLookup_append_left (by simp [hl])).trans hl
    | none =>
      have hm2 : dictMem d k2 = false := by
        cases hmm : dictMem d k2 with
        | false => rfl
        | true =>
          have := dictLookup_isSome_of_mem hmm
          rw [hl] at this
          simp at this
      rw [dictLookup_append_right hm2, dictLookup_cons, if_neg (fun hh => h hh.symm)]
      rfl

theorem dictKeys_insert_of_mem {d : EvDict} {k : String} {v : Event}
    (h : dictMem d k = true) : dictKeys (dictInsert d k v) = dictKeys d := by
  unfold dictInsert
  rw [if_pos h]
  exact dictKeys_map_replace d

theorem dictKeys_insert_of_not_mem {d : EvDict} {k : String} {v : Event}
    (h : dictMem d k = false) : dictKeys (dictInsert d k v) = dictKeys d ++ [k] := by
  unfold dictInsert
  rw [if_neg (by simp [h])]
  simp [dictKeys]

theorem mem_dictKeys_insert {d : EvDict} {k k2 : String} {v : Event} :
    k2 ∈ dictKeys (dictInsert d k v) ↔ k2 = k ∨ k2 ∈ dictKeys d := by
  cases hm : dictMem d k with
  | true =>
    rw [dictKeys_insert_of_mem hm]
    have hk : k ∈ dictKeys d := dictMem_iff_mem_keys.mp hm
    constructor
    · exact Or.inr
    · rintro (h | h)
      · rw [h]; exact hk
      · exact h
  | false =>
    rw [dictKeys_insert_of_not_mem hm]
    simp [or_comm]

theorem nodup_dictKeys_insert {d : EvDict} {k : String} {v : Event}
    (h : (dictKeys d).Nodup) : (dictKeys (dictInsert d k v)).Nodup := by
  cases hm : dictMem d k with
  | true => rw [dictKeys_insert_of_mem hm]; exact h
  | false =>
    rw [dictKeys_insert_of_not_mem hm]
    have hk : k ∉ dictKeys d := fun hc => by
      rw [dictMem_iff_mem_keys.mpr hc] at hm; cases hm
    simp [List.nodup_append, h, hk]

/-! ### The live-insertion and archive-insertion folds -/

theorem dictLookup_foldl_insertLive (live : List Event) :
    ∀ (d : EvDict) (k : String),
      dictLookup (live.foldl insertLive d) k =
        match lastMatch k live with
        | some e => some (setEid e k)
        | none => dictLookup d k := by
  induction live with
  | nil => intro d k; rfl
  | cons e rest ih =>
    intro d k
    rw [List.foldl_cons, ih]
    cases hr : lastMatch k rest with
    | some r => simp [lastMatch, hr]
    | none =>
      simp only [lastMatch, hr]
      cases hn : normalize_event_id_val e.event_id with
      | none => simp [insertLive, hn]
      | some k2 =>
        by_cases hk : k2 = k
        · subst hk
          simp [insertLive, hn, dictLookup_insert_self]
        · have : ¬ (some k2 = some k) := by simp [hk]
          simp only [insertLive, hn, if_neg this]
          exact dictLookup_insert_other (fun hh => hk hh.symm)

theorem mem_dictKeys_insertLive {d : EvDict} {e : Event} {k : String} :
    k ∈ dictKeys (insertLive d e) ↔
      k ∈ dictKeys d ∨ normalize_event_id_val e.event_id = some k := by
  cases hn : normalize_event_id_val e.event_id with
  | none => simp [insertLive, hn]
  | some k2 =>
    simp only [insertLive, hn, mem_dictKeys_insert, Option.some_inj]
    constructor
    · rintro (h | h)
      · exact Or.inr h.symm
      · exact Or.inl h
    · rintro (h | h)
      · exact Or.inr h
      · exact Or.inl h.symm

theorem mem_dictKeys_insertArchive {d : EvDict} {e : Event} {k : String} :
    k ∈ dictKeys (insertArchive d e) ↔
      k ∈ dictKeys d ∨ normalize_event_id_val e.event_id = some k := by
  cases hn : normalize_event_id_val e.event_id with
  | none => simp [insertArchive, hn]
  | some k2 =>
    by_cases hm : dictMem d k2 = true
    · rw [show insertArchive d e = d by simp [insertArchive, hn, hm]]
      have hk2 : k2 ∈ dictKeys d := dictMem_iff_mem_keys.mp hm
      simp only [Option.some_inj]
      constructor
      · exact Or.inl
      · rintro (h | h)
        · exact h
        · exact h ▸ hk2
    · have hd : insertArchive d e = d ++ [(k2, setEid e k2)] := by
        simp only [insertArchive, hn]
        rw [if_neg hm]
      rw [hd]
      have hkeys : dictKeys (d ++ [(k2, setEid e k2)]) = dictKeys d ++ [k2] := by
        simp [dictKeys]
      rw [hkeys]
      simp only [List.mem_append, List.mem_singleton, Option.some_inj]
      constructor
      · rintro (h | h)
        · exact Or.inl h
        · exact Or.inr h.symm
      · rintro (h | h)
        · exact Or.inl h
        · exact Or.inr h.symm

theorem mem_dictKeys_foldl_insertLive (live : List Event) :
    ∀ (d : EvDict) (k : String),
      k ∈ dictKeys (live.foldl insertLive d) ↔
        k ∈ dictKeys d ∨ ∃ e ∈ live, normalize_event_id_val e.event_id = some k := by
  induction live with
  | nil => intro d k; simp
  | cons e rest ih =>
    intro d k
    rw [List.foldl_cons, ih, mem_dictKeys_insertLive]
    simp only [List.mem_cons]
    constructor
    · rintro ((h | h) | h)
      · exact Or.inl h
      · exact Or.inr ⟨e, Or.inl rfl, h⟩
      · obtain ⟨e2, he2, hn2⟩ := h
        exact Or.inr ⟨e2, Or.inr he2, hn2⟩
    · rintro (h | ⟨e2, he2 | he2, hn2⟩)
      · exact Or.inl (Or.inl h)
      · exact Or.inl (Or.inr (he2 ▸ hn2))
      · exact Or.inr ⟨e2, he2, hn2⟩

theorem nodup_dictKeys_foldl_insertLive (live : List Event) :
    ∀ (d : EvDict), (dictKeys d).Nodup → (dictKeys (live.foldl insertLive d)).Nodup := by
  induction live with
  | nil => intro d h; exact h
  | cons e rest ih =>
    intro d h
    rw [List.foldl_cons]
    apply ih
    cases hn : normalize_event_id_val e.event_id with
    | none => simpa [insertLive, hn] using h
    | some k2 => simpa [insertLive, hn] using nodup_dictKeys_insert h

theorem dictLookup_foldl_insertArchive (archive : List Event) :
    ∀ (d : EvDict) (k : String), (dictLookup d k).isSome →
      dictLookup (archive.foldl insertArchive d) k = dictLookup d k := by
  induction archive with
  | nil => intro d k _; rfl
  | cons e rest ih =>
    intro d k h
    rw [List.foldl_cons]
    cases hn : normalize_event_id_val e.event_id with
    | none => rw [show insertArchive d e = d by simp [insertArchive, hn]]; exact ih d k h
    | some k2 =>
      by_cases hm : dictMem d k2 = true
      · rw [show insertArchive d e = d by simp [insertArchive, hn, hm]]
        exact ih d k h
      · have hd : insertArchive d e = d ++ [(k2, setEid e k2)] := by
          simp only [insertArchive, hn]
          rw [if_neg hm]
        rw [hd]
        rw [ih _ k (by rw [dictLookup_append_left h]; exact h)]
        exact dictLookup_append_left h

theorem mem_dictKeys_foldl_insertArchive (archive : List Event) :
    ∀ (d : EvDict) (k : String),
      k ∈ dictKeys (archive.foldl insertArchive d) ↔
        k ∈ dictKeys d ∨ ∃ e ∈ archive, normalize_event_id_val e.event_id = some k := by
  induction archive with
  | nil => intro d k; simp
  | cons e rest ih =>
    intro d k
    rw [List.foldl_cons, ih, mem_dictKeys_insertArchive]
    simp only [List.mem_cons]
    constructor
    · rintro ((h | h) | h)
      · exact Or.inl h
      · exact Or.inr ⟨e, Or.inl rfl, h⟩
      · obtain ⟨e2, he2, hn2⟩ := h
        exact Or.inr ⟨e2, Or.inr he2, hn2⟩
    · rintro (h | ⟨e2, he2 | he2, hn2⟩)
      · exact Or.inl (Or.inl h)
      · exact Or.inl (Or.inr (he2 ▸ hn2))
      · exact Or.inr ⟨e2, he2, hn2⟩

theorem nodup_dictKeys_foldl_insertArchive (archive : List Event) :
    ∀ (d : EvDict), (dictKeys d).Nodup → (dictKeys (archive.foldl insertArchive d)).Nodup := by
  induction archive with
  | nil => intro d h; exact h
  | cons e rest ih =>
    intro d h
    rw [List.foldl_cons]
    apply ih
    cases hn : normalize_event_id_val e.event_id with
    | none => simpa [insertArchive, hn] using h
    | some k2 =>
      by_cases hm : dictMem d k2 = true
      · rw [show insertArchive d e = d by simp [insertArchive, hn, hm]]; exact h
      · have hd : insertArchive d e = d ++ [(k2, setEid e k2)] := by
          simp only [insertArchive, hn]
          rw [if_neg hm]
        rw [hd]
        have hk : k2 ∉ dictKeys d := fun hc => by
          rw [dictMem_iff_mem_keys.mpr hc] at hm; exact hm rfl
        have : dictKeys (d ++ [(k2, setEid e k2)]) = dictKeys d ++ [k2] := by
          simp [dictKeys]
        rw [this]
        simp [List.nodup_append, h, hk]

/-! ### Lemmas about keyed deduplication -/

section Dedup

variable {α β : Type} [DecidableEq β] {key : α → β}

theorem mem_of_mem_dedupLast {l : List α} {a : α} (h : a ∈ dedupLast key l) : a ∈ l := by
  induction l with
  | nil => cases h
  | cons b rest ih =>
    rw [dedupLast] at h
    by_cases hb : rest.any (fun c => decide (key c = key b)) = true
    · rw [if_pos hb] at h
      exact List.mem_cons_of_mem _ (ih h)
    · rw [if_neg hb] at h
      rcases List.mem_cons.mp h with h | h
      · exact h ▸ List.mem_cons_self _ _
      · exact List.mem_cons_of_mem _ (ih h)

theorem lastWith_eq_none {k : β} {l : List α} (h : ∀ b ∈ l, key b ≠ k) :
    lastWith key k l = none := by
  induction l with
  | nil => rfl
  | cons b rest ih =>
    have hr := ih (fun c hc => h c (List.mem_cons_of_mem _ hc))
    simp [lastWith, hr, h b (List.mem_cons_self _ _)]

theorem lastWith_isSome {k : β} {l : List α} {b : α} (hb : b ∈ l) (hk : key b = k) :
    (lastWith key k l).isSome := by
  induction l with
  | nil => cases hb
  | cons c rest ih =>
    cases hr : lastWith key k rest with
    | some r => simp [lastWith, hr]
    | none =>
      rcases List.mem_cons.mp hb with h | h
      · subst h
        simp [lastWith, hr, hk]
      · have := ih h
        rw [hr] at this
        simp at this

theorem lastWith_of_mem_dedupLast {l : List α} {a : α} (h : a ∈ dedupLast key l) :
    lastWith key (key a) l = some a := by
  induction l with
  | nil => cases h
  | cons b rest ih =>
    rw [dedupLast] at h
    by_cases hb : rest.any (fun c => decide (key c = key b)) = true
    · rw [if_pos hb] at h
      simp [lastWith, ih h]
    · rw [if_neg hb] at h
      simp only [List.any_eq_true, decide_eq_true_eq, not_exists, not_and] at hb
      rcases List.mem_cons.mp h with h | h
      · subst h
        have hnone : lastWith key (key a) rest = none :=
          lastWith_eq_none (fun c hc hk => hb c hc hk)
        simp [lastWith, hnone]
      · simp [lastWith, ih h]

theorem mem_dedupLast_of_lastWith {l : List α} {k : β} {a : α}
    (h : lastWith key k l = some a) : a ∈ dedupLast key l ∧ key a = k := by
  induction l with
  | nil => cases h
  | cons b rest ih =>
    rw [lastWith] at h
    cases hr : lastWith key k rest with
    | some r =>
      rw [hr] at h
      injection h with h
      subst h
      obtain ⟨hmem, hkey⟩ := ih hr
      rw [dedupLast]
      by_cases hb : rest.any (fun c => decide (key c = key b)) = true
      · rw [if_pos hb]; exact ⟨hmem, hkey⟩
      · rw [if_neg hb]; exact ⟨List.mem_cons_of_mem _ hmem, hkey⟩
    | none =>
      rw [hr] at h
      by_cases hk : key b = k
      · rw [if_pos hk] at h
        injection h with h
        subst h
        have hb : ¬ rest.any (fun c => decide (key c = key b)) = true := by
          simp only [List.any_eq_true, decide_eq_true_eq, not_exists, not_and]
          intro c hc hkc
          have := @lastWith_isSome _ _ _ key k _ _ hc (hk ▸ hkc)
          rw [hr] at this
          simp at this
        rw [dedupLast, if_neg hb]
        exact ⟨List.mem_cons_self _ _, hk⟩
      · rw [if_neg hk] at h
        cases h

theorem nodup_map_key_dedupLast (l : List α) : ((dedupLast key l).map key).Nodup := by
  induction l with
  | nil => exact List.nodup_nil
  | cons b rest ih =>
    rw [dedupLast]
    by_cases hb : rest.any (fun c => decide (key c = key b)) = true
    · rw [if_pos hb]; exact ih
    · rw [if_neg hb]
      simp only [List.any_eq_true, decide_eq_true_eq, not_exists, not_and] at hb
      rw [List.map_cons, List.nodup_cons]
      refine ⟨?_, ih⟩
      intro hc
      obtain ⟨x, hx, hkx⟩ := List.mem_map.mp hc
      exact hb x (mem_of_mem_dedupLast hx) hkx

theorem mem_of_mem_dedupFirstAux {seen : List β} {l : List α} {a : α}
    (h : a ∈ dedupFirstAux key seen l) : a ∈ l := by
  induction l generalizing seen with
  | nil => cases h
  | cons b rest ih =>
    rw [dedupFirstAux] at h
    by_cases hb : key b ∈ seen
    · rw [if_pos hb] at h
      exact List.mem_cons_of_mem _ (ih h)
    · rw [if_neg hb] at h
      rcases List.mem_cons.mp h with h | h
      · exact h ▸ List.mem_cons_self _ _
      · exact List.mem_cons_of_mem _ (ih h)

theorem dedupFirstAux_key_not_seen {seen : List β} {l : List α} {a : α}
    (h : a ∈ dedupFirstAux key seen l) : key a ∉ seen := by
  induction l generalizing seen with
  | nil => cases h
  | cons b rest ih =>
    rw [dedupFirstAux] at h
    by_cases hb : key b ∈ seen
    · rw [if_pos hb] at h
      exact ih h
    · rw [if_neg hb] at h
      rcases List.mem_cons.mp h with h | h
      · exact h ▸ hb
      · intro hc
        exact ih h (List.mem_cons_of_mem _ hc)

theorem nodup_map_key_dedupFirstAux (l : List α) :
    ∀ (seen : List β), ((dedupFirstAux key seen l).map key).Nodup := by
  induction l with
  | nil => intro seen; exact List.nodup_nil
  | cons b rest ih =>
    intro seen
    rw [dedupFirstAux]
    by_cases hb : key b ∈ seen
    · rw [if_pos hb]; exact ih seen
    · rw [if_neg hb]
      rw [List.map_cons, List.nodup_cons]
      refine ⟨?_, ih _⟩
      intro hc
      obtain ⟨x, hx, hkx⟩ := List.mem_map.mp hc
      exact dedupFirstAux_key_not_seen hx (hkx ▸ List.mem_cons_self _ _)

theorem firstWith_of_mem_dedupFirstAux {l : List α} :
    ∀ {seen : List β} {a : α}, a ∈ dedupFirstAux key seen l → key a ∉ seen →
      firstWith key (key a) l = some a := by
  induction l with
  | nil => intro seen a h _; cases h
  | cons b rest ih =>
    intro seen a h hs
    rw [dedupFirstAux] at h
    by_cases hb : key b ∈ seen
    · rw [if_pos hb] at h
      have hne : key b ≠ key a := fun hc => hs (hc ▸ hb)
      rw [firstWith, if_neg hne]
      exact ih h hs
    · rw [if_neg hb] at h
      rcases List.mem_cons.mp h with h | h
      · subst h
        rw [firstWith, if_pos rfl]
      · have hne : key a ≠ key b := fun hc =>
          dedupFirstAux_key_not_seen h (hc ▸ List.mem_cons_self _ _)
        rw [firstWith, if_neg (fun hc => hne hc.symm)]
        exact ih h (by
          intro hc
          rcases List.mem_cons.mp hc with hc | hc
          · exact hne hc
          · exact hs hc)

theorem firstWith_of_mem_dedupFirst {l : List α} {a : α}
    (h : a ∈ dedupFirst key l) : firstWith key (key a) l = some a :=
  firstWith_of_mem_dedupFirstAux h (by simp)

theorem lastWith_append {k : β} (l1 l2 : List α) :
    lastWith key k (l1 ++ l2) =
      match lastWith key k l2 with
      | some r => some r
      | none => lastWith key k l1 := by
  induction l1 with
  | nil =>
    cases hr : lastWith key k l2 with
    | some r => simp [hr]
    | none => simp [hr, lastWith]
  | cons b rest ih =>
    rw [List.cons_append, lastWith, ih, lastWith]
    cases hr : lastWith key k l2 with
    | some r => rfl
    | none => rfl

end Dedup

/-! ### Lemmas about the descending sort -/

theorem mem_insertByEnd {r x : ArchRecord} {l : List ArchRecord} :
    x ∈ insertByEnd r l ↔ x = r ∨ x ∈ l := by
  induction l with
  | nil => simp [insertByEnd]
  | cons a t ih =>
    rw [insertByEnd]
    by_cases h : a.ended_at ≤ r.ended_at
    · rw [if_pos h]
      simp
    · rw [if_neg h]
      simp only [List.mem_cons, ih]
      tauto

theorem perm_insertByEnd (r : ArchRecord) (l : List ArchRecord) :
    List.Perm (insertByEnd r l) (r :: l) := by
  induction l with
  | nil => exact List.Perm.refl _
  | cons a t ih =>
    rw [insertByEnd]
    by_cases h : a.ended_at ≤ r.ended_at
    · rw [if_pos h]
    · rw [if_neg h]
      exact (List.Perm.cons a ih).trans (List.Perm.swap r a t)

theorem perm_sortByEndDesc (l : List ArchRecord) : List.Perm (sortByEndDesc l) l := by
  induction l with
  | nil => exact List.Perm.refl _
  | cons a t ih =>
    exact (perm_insertByEnd a (sortByEndDesc t)).trans (List.Perm.cons a ih)

theorem pairwise_insertByEnd {r : ArchRecord} {l : List ArchRecord}
    (h : List.Pairwise (fun a b => b.ended_at ≤ a.ended_at) l) :
    List.Pairwise (fun a b => b.ended_at ≤ a.ended_at) (insertByEnd r l) := by
  induction l with
  | nil => simp [insertByEnd]
  | cons a t ih =>
    rw [List.pairwise_cons] at h
    obtain ⟨ha, ht⟩ := h
    rw [insertByEnd]
    by_cases hle : a.ended_at ≤ r.ended_at
    · rw [if_pos hle]
      rw [List.pairwise_cons]
      refine ⟨?_, List.pairwise_cons.mpr ⟨ha, ht⟩⟩
      intro x hx
      rcases List.mem_cons.mp hx with hx | hx
      · exact hx ▸ hle
      · exact le_trans (ha x hx) hle
    · rw [if_neg hle]
      rw [List.pairwise_cons]
      refine ⟨?_, ih ht⟩
      intro x hx
      rcases mem_insertByEnd.mp hx with hx | hx
      · exact hx ▸ le_of_lt (not_le.mp hle)
      · exact ha x hx

theorem sorted_sortByEndDesc (l : List ArchRecord) :
    List.Pairwise (fun a b => b.ended_at ≤ a.ended_at) (sortByEndDesc l) := by
  induction l with
  | nil => exact List.Pairwise.nil
  | cons a t ih => exact pairwise_insertByEnd ih

theorem mem_sortByEndDesc {x : ArchRecord} {l : List ArchRecord} :
    x ∈ sortByEndDesc l ↔ x ∈ l :=
  (perm_sortByEndDesc l).mem_iff

/-! ### Further helper lemmas -/

theorem lastWith_mem {α β : Type} [DecidableEq β] {key : α → β} {k : β}
    {l : List α} {a : α} (h : lastWith key k l = some a) : a ∈ l := by
  induction l with
  | nil => cases h
  | cons b rest ih =>
    rw [lastWith] at h
    cases hr : lastWith key k rest with
    | some r =>
      rw [hr] at h
      injection h with h
      exact List.mem_cons_of_mem _ (ih (h ▸ hr))
    | none =>
      rw [hr] at h
      by_cases hk : key b = k
      · rw [if_pos hk] at h
        injection h with h
        exact h ▸ List.mem_cons_self _ _
      · rw [if_neg hk] at h
        cases h

theorem foldl_append_flatMap {α β : Type} (f : α → List β) (l : List α) :
    ∀ acc : List β, l.foldl (fun a s => a ++ f s) acc = acc ++ l.flatMap f := by
  induction l with
  | nil => intro acc; simp
  | cons s rest ih =>
    intro acc
    rw [List.foldl_cons, ih, List.flatMap_cons, List.append_assoc]

/-- Characterization of the pagination loop: it returns the concatenation of
the pages `page, page+1, …, page+n-1` for some `n` at most `fuel`, where
every returned page decoded non-empty, and the loop stopped either by
exhausting its fuel or because the next page would not have continued
(empty page, transport error or decode error). -/
theorem fetchPages_pages (resp : Nat → PageResult) :
    ∀ (fuel page : Nat), ∃ n ≤ fuel,
      fetchPages resp fuel page =
        (List.range' page n).flatMap (fun p => pageEvents (resp p)) ∧
      (∀ p ∈ List.range' page n, okNonempty (resp p) = true) ∧
      (n = fuel ∨ okNonempty (resp (page + n)) = false) := by
  intro fuel
  induction fuel with
  | zero =>
    intro page
    exact ⟨0, Nat.le_refl 0, by simp [fetchPages], by simp, Or.inl rfl⟩
  | succ fuel ih =>
    intro page
    cases hr : resp page with
    | ok es =>
      cases es with
      | nil =>
        refine ⟨0, Nat.zero_le _, ?_, by simp, Or.inr ?_⟩
        · simp [fetchPages, hr]
        · simp [okNonempty, hr]
      | cons e es2 =>
        obtain ⟨n, hn, heq, hall, hstop⟩ := ih (page + 1)
        refine ⟨n + 1, by omega, ?_, ?_, ?_⟩
        · rw [show fetchPages resp (fuel + 1) page = (e :: es2) ++ fetchPages resp fuel (page + 1) by
            simp [fetchPages, hr]]
          rw [heq, List.range'_succ, List.flatMap_cons, hr]
          rfl
        · intro p hp
          rw [List.range'_succ] at hp
          rcases List.mem_cons.mp hp with hp | hp
          · subst hp
            simp [okNonempty, hr]
          · exact hall p hp
        · rcases hstop with hstop | hstop
          · exact Or.inl (by omega)
          · refine Or.inr ?_
            have harith : page + (n + 1) = page + 1 + n := by omega
            rw [harith]
            exact hstop
    | requestError =>
      refine ⟨0, Nat.zero_le _, ?_, by simp, Or.inr ?_⟩
      · simp [fetchPages, hr]
      · simp [okNonempty, hr]
    | decodeError =>
      refine ⟨0, Nat.zero_le _, ?_, by simp, Or.inr ?_⟩
      · simp [fetchPages, hr]
      · simp [okNonempty, hr]

theorem lastWith_append_right {α β : Type} [DecidableEq β] {key : α → β} {k : β}
    {l2 : List α} (l1 : List α) (h : (lastWith key k l2).isSome) :
    lastWith key k (l1 ++ l2) = lastWith key k l2 := by
  obtain ⟨r, hr⟩ := Option.isSome_iff_exists.mp h
  induction l1 with
  | nil => rw [List.nil_append]
  | cons b rest ih =>
    rw [List.cons_append, lastWith, ih, hr]

/-- All of `dateFiltered`'s output came from the input and passed every
active date filter. -/
theorem mem_dateFiltered {events : List Event} {selStart selEnd : List Int} {e : Event}
    (h : e ∈ dateFiltered events selStart selEnd) :
    e ∈ events ∧
    (selStart ≠ [] → matchesStartDate selStart e = true) ∧
    (selEnd ≠ [] → matchesEndDate selEnd e = true) := by
  simp only [dateFiltered] at h
  by_cases h2 : selEnd.isEmpty
  · rw [if_pos h2] at h
    have hEnd : selEnd = [] := List.isEmpty_iff.mp h2
    by_cases h1 : selStart.isEmpty
    · rw [if_pos h1] at h
      have hStart : selStart = [] := List.isEmpty_iff.mp h1
      exact ⟨h, fun hc => absurd hStart hc, fun hc => absurd hEnd hc⟩
    · rw [if_neg h1] at h
      obtain ⟨he, hm⟩ := List.mem_filter.mp h
      exact ⟨he, fun _ => hm, fun hc => absurd hEnd hc⟩
  · rw [if_neg h2] at h
    obtain ⟨hf1, hmEnd⟩ := List.mem_filter.mp h
    by_cases h1 : selStart.isEmpty
    · rw [if_pos h1] at hf1
      have hStart : selStart = [] := List.isEmpty_iff.mp h1
      exact ⟨hf1, fun hc => absurd hStart hc, fun _ => hmEnd⟩
    · rw [if_neg h1] at hf1
      obtain ⟨he, hmStart⟩ := List.mem_filter.mp hf1
      exact ⟨he, fun _ => hmStart, fun _ => hmEnd⟩

theorem matchesStartDate_spec {sel : List Int} {e : Event}
    (h : matchesStartDate sel e = true) :
    ∃ t, e.started_at = some t ∧ jstDate t ∈ sel := by
  unfold matchesStartDate at h
  cases hs : e.started_at with
  | none => rw [hs] at h; exact Bool.noConfusion h
  | some t => rw [hs] at h; exact ⟨t, rfl, of_decide_eq_true h⟩

theorem matchesEndDate_spec {sel : List Int} {e : Event}
    (h : matchesEndDate sel e = true) :
    ∃ t, e.ended_at = some t ∧ jstDate t ∈ sel := by
  unfold matchesEndDate at h
  cases hs : e.ended_at with
  | none => rw [hs] at h; exact Bool.noConfusion h
  | some t => rw [hs] at h; exact ⟨t, rfl, of_decide_eq_true h⟩

theorem matchesTarget_spec {sel : List Bool} {e : Event}
    (h : matchesTarget sel e = true) :
    ∃ b, e.is_entry_scope_inner = some b ∧ b ∈ sel := by
  unfold matchesTarget at h
  cases hs : e.is_entry_scope_inner with
  | none => rw [hs] at h; exact Bool.noConfusion h
  | some b => rw [hs] at h; exact ⟨b, rfl, of_decide_eq_true h⟩

theorem durMatch_spec {sel : List String} {e : Event} (h : durMatch sel e = true) :
    ∃ ts te, e.started_at = some ts ∧ e.ended_at = some te ∧
      get_duration_category ts te ∈ sel := by
  unfold durMatch at h
  cases hs : e.started_at with
  | none => cases he : e.ended_at <;> rw [hs, he] at h <;> exact Bool.noConfusion h
  | some ts =>
    cases he : e.ended_at with
    | none => rw [hs, he] at h; exact Bool.noConfusion h
    | some te =>
      rw [hs, he] at h
      exact ⟨ts, te, rfl, rfl, of_decide_eq_true h⟩

/-! ## The claims -/

/-- C3 (counterexample to the claim as stated): the string
`"9007199254740993"` (the integer 2^53 + 1) matches the integer pattern,
so the claim requires the canonical decimal string `"9007199254740993"`;
but the code routes matched strings through `int(float(s))`, and binary64
rounding sends 2^53 + 1 to 2^53, so `normalize_event_id_val` returns
`"9007199254740992"` instead. -/
theorem normalize_event_id_val_big_string :
    normalize_event_id_val (PyVal.vStr "9007199254740993") = some "9007199254740992" ∧
    matchesIntRe (stripChars ("9007199254740993" : String).data) = true ∧
    natOfDigits ((stripChars ("9007199254740993" : String).data).takeWhile Char.isDigit) =
      9007199254740993 ∧
    ("9007199254740992" : String) ≠ "9007199254740993" :=
  ⟨by decide, by decide, by decide, by decide⟩

/-- C3 (amended): `normalize_event_id_val` maps 123, `"123"` and `"123.0"`
to `"123"`, `None` and the empty or whitespace-only string to the invalid
result, and `"abc"` to `"abc"`; every `int` and every integral `float` maps
to its canonical decimal string; a string matching the integer pattern maps
to the canonical decimal string of its value provided that value survives
the round-trip through binary64 floating point unchanged (all values below
2^53 do); any other non-empty value maps to its trimmed string form; and
missing or empty input maps to invalid. -/
theorem normalize_event_id_val_spec :
    (normalize_event_id_val (PyVal.vInt 123) = some "123" ∧
      normalize_event_id_val (PyVal.vStr "123") = some "123" ∧
      normalize_event_id_val (PyVal.vStr "123.0") = some "123" ∧
      normalize_event_id_val PyVal.vNone = none ∧
      normalize_event_id_val (PyVal.vStr "") = none ∧
      normalize_event_id_val (PyVal.vStr "abc") = some "abc") ∧
    (∀ n : Int, normalize_event_id_val (PyVal.vInt n) = some (toString n) ∧
      normalize_event_id_val (PyVal.vFloatInt n) = some (toString n)) ∧
    (∀ s : String, matchesIntRe (stripChars s.data) = true →
      pyFloatOfNat (natOfDigits ((stripChars s.data).takeWhile Char.isDigit)) =
        some (natOfDigits ((stripChars s.data).takeWhile Char.isDigit)) →
      normalize_event_id_val (PyVal.vStr s) =
        some (toString (natOfDigits ((stripChars s.data).takeWhile Char.isDigit)))) ∧
    (∀ s : String, matchesIntRe (stripChars s.data) = false →
      stripChars s.data ≠ [] →
      normalize_event_id_val (PyVal.vStr s) = some (String.mk (stripChars s.data))) ∧
    (∀ s : String, stripChars s.data = [] →
      normalize_event_id_val (PyVal.vStr s) = none) ∧
    (∀ r : String, normalize_event_id_val (PyVal.vFloatStr r) = some (pyStrip r)) := by
  refine ⟨⟨by decide, by decide, by decide, rfl, by decide, by decide⟩,
    fun n => ⟨rfl, rfl⟩, ?_, ?_, ?_, fun r => rfl⟩
  · intro s h1 h2
    simp only [normalize_event_id_val]
    rw [if_pos h1, h2]
  · intro s h1 h2
    simp only [normalize_event_id_val]
    rw [if_neg (by simp [h1]), if_neg h2]
  · intro s h
    have h1 : matchesIntRe (stripChars s.data) = false := by
      rw [h]; decide
    simp only [normalize_event_id_val]
    rw [if_neg (by simp [h1]), if_pos h]

/-- Witness for C3: the string `" 123.00 "` strips to `"123.00"`, matches
the integer pattern with value 123 (below 2^53, hence preserved by
binary64), and normalizes to `"123"`. -/
theorem normalize_event_id_val_spec_witness :
    normalize_event_id_val (PyVal.vStr " 123.00 ") =
      some (toString (natOfDigits ((stripChars (" 123.00 " : String).data).takeWhile Char.isDigit))) ∧
    toString (natOfDigits ((stripChars (" 123.00 " : String).data).takeWhile Char.isDigit)) = "123" :=
  ⟨normalize_event_id_val_spec.2.2.1 " 123.00 " (by decide) (by decide), by decide⟩

/-- C4: for every start timestamp `t`, a duration of exactly 3, 7, 10 or 14
days lands in the shorter bucket (the comparisons are `<=`), and one second
more moves to the next bucket; in particular `classify(t, t + 3*86400) =
"3日以内"`, `classify(t, t + 3*86400 + 1) = "1週間"`, `classify(t, t +
14*86400) = "2週間"` and `classify(t, t + 14*86400 + 1) = "その他"`. -/
theorem get_duration_category_boundaries (t : Int) :
    get_duration_category t (t + 259200) = "3日以内" ∧
    get_duration_category t (t + 259201) = "1週間" ∧
    get_duration_category t (t + 604800) = "1週間" ∧
    get_duration_category t (t + 604801) = "10日" ∧
    get_duration_category t (t + 864000) = "10日" ∧
    get_duration_category t (t + 864001) = "2週間" ∧
    get_duration_category t (t + 1209600) = "2週間" ∧
    get_duration_category t (t + 1209601) = "その他" := by
  have hshift : ∀ d : Int, get_duration_category t (t + d) = get_duration_category 0 d := by
    intro d
    simp [get_duration_category]
  refine ⟨?_, ?_, ?_, ?_, ?_, ?_, ?_, ?_⟩ <;> rw [hshift] <;> decide

/-- C10: a non-positive duration (`ended_at <= started_at`) still returns a
label, namely the shortest bucket `"3日以内"`: the first comparison
`duration <= 3 days` already holds. -/
theorem get_duration_category_nonpos (s e : Int) (h : e ≤ s) :
    get_duration_category s e = "3日以内" := by
  simp only [get_duration_category]
  rw [if_pos (by omega)]

/-- Witness for C10 at `started_at = 5`, `ended_at = 3`. -/
theorem get_duration_category_nonpos_witness :
    get_duration_category 5 3 = "3日以内" :=
  get_duration_category_nonpos 5 3 (by decide)

/-- C9: `get_total_entries` returns 0 on HTTP 404 (before `raise_for_status`
could raise); returns the `"N/A"` sentinel on a transport exception, on any
other 4xx/5xx status and on a decode failure; otherwise
returns the `total_entries` field, defaulting to 0 when absent, and a
non-negative count whenever the field is absent or non-negative; and on
every outcome it returns a value (never an uncaught exception). -/
theorem get_total_entries_spec :
    (∀ body, get_total_entries (RoomListOutcome.resp 404 body) = EntriesResult.count 0) ∧
    (get_total_entries RoomListOutcome.transportExc = EntriesResult.na) ∧
    (∀ status body, status ≠ 404 → 400 ≤ status → status < 600 →
      get_total_entries (RoomListOutcome.resp status body) = EntriesResult.na) ∧
    (∀ status, status ≠ 404 → status < 400 →
      get_total_entries (RoomListOutcome.resp status (Except.error ())) = EntriesResult.na) ∧
    (∀ (status : Nat) (t : Option Int), status ≠ 404 → status < 400 →
      get_total_entries (RoomListOutcome.resp status (Except.ok t)) =
        EntriesResult.count (t.getD 0)) ∧
    (∀ (status : Nat) (t : Option Int), status ≠ 404 → status < 400 →
      (∀ v, t = some v → 0 ≤ v) →
      ∃ n : Int, get_total_entries (RoomListOutcome.resp status (Except.ok t)) =
        EntriesResult.count n ∧ 0 ≤ n) ∧
    (∀ o : RoomListOutcome, get_total_entries o = EntriesResult.na ∨
      ∃ n : Int, get_total_entries o = EntriesResult.count n) := by
  refine ⟨?_, rfl, ?_, ?_, ?_, ?_, ?_⟩
  · intro body
    simp [get_total_entries]
  · intro status body h404 h400 h600
    simp only [get_total_entries]
    rw [if_neg h404, if_pos ⟨h400, h600⟩]
  · intro status h404 h400
    simp only [get_total_entries]
    rw [if_neg h404, if_neg (by omega)]
  · intro status t h404 h400
    simp only [get_total_entries]
    rw [if_neg h404, if_neg (by omega)]
  · intro status t h404 h400 hpos
    refine ⟨t.getD 0, ?_, ?_⟩
    · simp only [get_total_entries]
      rw [if_neg h404, if_neg (by omega)]
    · cases t with
      | none => exact le_refl 0
      | some v => exact hpos v rfl
  · intro o
    cases o with
    | transportExc => exact Or.inl rfl
    | resp status body =>
      simp only [get_total_entries]
      by_cases h404 : status = 404
      · rw [if_pos h404]
        exact Or.inr ⟨0, rfl⟩
      · rw [if_neg h404]
        by_cases h400 : 400 ≤ status ∧ status < 600
        · rw [if_pos h400]
          exact Or.inl rfl
        · rw [if_neg h400]
          cases body with
          | error u => exact Or.inl rfl
          | ok t => exact Or.inr ⟨t.getD 0, rfl⟩

/-- Witness for C9: a 200 response whose body decodes with
`total_entries = 7` yields the count 7. -/
theorem get_total_entries_spec_witness :
    get_total_entries (RoomListOutcome.resp 200 (Except.ok (some 7))) =
      EntriesResult.count 7 :=
  get_total_entries_spec.2.2.2.2.1 200 (some 7) (by decide) (by decide)

/-- C1: the merged dictionary built in `main` has no duplicate keys; its key
set is exactly the union of the valid normalized identifiers of the live
list and of the archive list; and every key that occurs in the live list is
mapped to the last live event bearing it (with its id overwritten by the
normalized form) — so a live record always beats an archived one sharing
its identifier, and within the live list the last occurrence in fetch order
wins. -/
theorem merge_main_spec (live archive : List Event) :
    (dictKeys (mergeEvents live archive)).Nodup ∧
    (∀ k : String, k ∈ dictKeys (mergeEvents live archive) ↔
      (∃ e ∈ live, normalize_event_id_val e.event_id = some k) ∨
      (∃ e ∈ archive, normalize_event_id_val e.event_id = some k)) ∧
    (∀ (k : String) (e : Event), lastMatch k live = some e →
      dictLookup (mergeEvents live archive) k = some (setEid e k)) := by
  refine ⟨?_, ?_, ?_⟩
  · exact nodup_dictKeys_foldl_insertArchive archive _
      (nodup_dictKeys_foldl_insertLive live [] (by simp [dictKeys]))
  · intro k
    show k ∈ dictKeys (archive.foldl insertArchive (live.foldl insertLive [])) ↔ _
    rw [mem_dictKeys_foldl_insertArchive, mem_dictKeys_foldl_insertLive]
    simp only [dictKeys, List.map_nil, List.not_mem_nil, false_or]
  · intro k e h
    have hlive : dictLookup (live.foldl insertLive []) k = some (setEid e k) := by
      rw [dictLookup_foldl_insertLive live [] k, h]
    show dictLookup (archive.foldl insertArchive (live.foldl insertLive [])) k = _
    rw [dictLookup_foldl_insertArchive archive _ k (by rw [hlive]; rfl)]
    exact hlive

/-- Witness for C1: identifier `"2"` occurs twice in the live list (as the
int 2 and the string `"2.0"`) and again in the archive; the merged record
under `"2"` is the last live occurrence, with its id normalized. -/
theorem merge_main_spec_witness :
    dictLookup (mergeEvents [wLive1, wLive2] [wArch2, wArch3]) "2" =
      some (setEid wLive2 "2") :=
  (merge_main_spec [wLive1, wLive2] [wArch2, wArch3]).2.2 "2" wLive2 (by decide)

/-- C6: `get_events` concatenates, status by status in the given order, the
events of that status's pagination; and each status's pagination returns
the pages `1..n` for some `n ≤ 20`, where every returned page decoded to a
non-empty event list, and the loop stopped either at the 20-request cap or
because the next page was empty, hit a transport/HTTP error, or failed to
decode — an error therefore abandons only the remaining pages of its own
status while everything already accumulated (including the other statuses)
is kept. -/
theorem get_events_spec (statuses : List Nat) (resp : Nat → Nat → PageResult) :
    get_events statuses resp = statuses.flatMap (fun s => fetchPages (resp s) 20 1) ∧
    ∀ s : Nat, ∃ n ≤ 20,
      fetchPages (resp s) 20 1 =
        (List.range' 1 n).flatMap (fun p => pageEvents (resp s p)) ∧
      (∀ p ∈ List.range' 1 n, okNonempty (resp s p) = true) ∧
      (n = 20 ∨ okNonempty (resp s (1 + n)) = false) := by
  constructor
  · exact (foldl_append_flatMap (fun s => fetchPages (resp s) 20 1) statuses []).trans
      (List.nil_append _)
  · intro s
    exact fetchPages_pages (resp s) 20 1

/-- Witness for C6: with one status whose page 1 holds one event and whose
page 2 raises a transport error, `get_events` returns the partial result of
page 1, and it equals the per-status concatenation the theorem names. -/
theorem get_events_spec_witness :
    get_events [7] wResp = [wFull] ∧
    get_events [7] wResp = ([7] : List Nat).flatMap (fun s => fetchPages (wResp s) 20 1) :=
  ⟨by decide, (get_events_spec [7] wResp).1⟩

/-- C5: every record returned by the archive reader came from a CSV row
whose two timestamps parsed as numbers and whose identifier normalized to a
valid key, is the last such row bearing its identifier (deduplication keeps
the last occurrence), and ended strictly before `now`; the output has no
duplicate identifiers, is sorted by `ended_at` descending, and conversely
every last-occurrence good row that ended before `now` appears in the
output. -/
theorem get_past_events_spec (rows : List CsvRow) (now : Int) :
    (∀ r ∈ get_past_events_from_files rows now,
      lastWith ArchRecord.event_id r.event_id (goodRows rows) = some r ∧
      r.ended_at < (now : Rat)) ∧
    ((get_past_events_from_files rows now).map ArchRecord.event_id).Nodup ∧
    List.Pairwise (fun a b => b.ended_at ≤ a.ended_at)
      (get_past_events_from_files rows now) ∧
    (∀ r : ArchRecord, lastWith ArchRecord.event_id r.event_id (goodRows rows) = some r →
      r.ended_at < (now : Rat) → r ∈ get_past_events_from_files rows now) := by
  simp only [get_past_events_from_files]
  have hperm := perm_sortByEndDesc ((dedupLast ArchRecord.event_id (goodRows rows)).filter
    (fun r => decide (r.ended_at < (now : Rat))))
  refine ⟨?_, ?_, sorted_sortByEndDesc _, ?_⟩
  · intro r hr
    obtain ⟨hrD, hrlt⟩ := List.mem_filter.mp (mem_sortByEndDesc.mp hr)
    exact ⟨lastWith_of_mem_dedupLast hrD, of_decide_eq_true hrlt⟩
  · have h1 : ((dedupLast ArchRecord.event_id (goodRows rows)).map ArchRecord.event_id).Nodup :=
      nodup_map_key_dedupLast _
    have h2 : (((dedupLast ArchRecord.event_id (goodRows rows)).filter
        (fun r => decide (r.ended_at < (now : Rat)))).map ArchRecord.event_id).Nodup :=
      List.Nodup.sublist (List.Sublist.map _ (List.filter_sublist _)) h1
    exact ((hperm.map ArchRecord.event_id).nodup_iff).mpr h2
  · intro r hlast hlt
    obtain ⟨hmem, _⟩ := mem_dedupLast_of_lastWith hlast
    exact mem_sortByEndDesc.mpr (List.mem_filter.mpr ⟨hmem, decide_eq_true hlt⟩)

/-- Witness for C5: two CSV rows share identifier `"1"`; the later row's
record (timestamps 150/250) is the one the reader returns for `now = 300`. -/
theorem get_past_events_spec_witness :
    wRec2 ∈ get_past_events_from_files [wRow1, wRow2] 300 :=
  (get_past_events_spec [wRow1, wRow2] 300).2.2.2 wRec2 (by decide) (by decide)

/-- C7: the uploaded archive (old rows, or none when the remote file is
absent, concatenated before the deduplicated-keep-first new batch, then
deduplicated by identifier keeping the last occurrence) has no duplicate
identifiers; each of its rows is an old row or a new-batch row; every row
whose identifier occurs in the new batch IS the new-batch row (newly
fetched data overrides the stale archived row); its identifier set is
exactly that of the concatenated input; each new-batch row is the
first fetched row bearing its identifier; the new batch has no duplicate
identifiers; and a missing remote archive contributes no rows. -/
theorem update_archive_spec (oldCsv : Option (List Event)) (new : List Event) :
    ((mergedArchive oldCsv new).map Prod.fst).Nodup ∧
    (∀ p ∈ mergedArchive oldCsv new, p ∈ oldRows oldCsv ∨ p ∈ newBatch new) ∧
    (∀ p ∈ mergedArchive oldCsv new, p.1 ∈ (newBatch new).map Prod.fst →
      p ∈ newBatch new) ∧
    (∀ k : Option String,
      k ∈ (oldRows oldCsv ++ newBatch new).map Prod.fst ↔
        k ∈ (mergedArchive oldCsv new).map Prod.fst) ∧
    (∀ q ∈ newBatch new,
      firstWith Prod.fst q.1
        ((new.map (fun e => (normKey e, e))).filter (fun p => p.1.isSome)) = some q) ∧
    ((newBatch new).map Prod.fst).Nodup ∧
    oldRows none = ([] : List ArchiveRow) := by
  refine ⟨nodup_map_key_dedupLast _, ?_, ?_, ?_, ?_, nodup_map_key_dedupFirstAux _ _, rfl⟩
  · intro p hp
    exact List.mem_append.mp (mem_of_mem_dedupLast hp)
  · intro p hp hk
    have hlast : lastWith Prod.fst p.1 (oldRows oldCsv ++ newBatch new) = some p :=
      lastWith_of_mem_dedupLast hp
    obtain ⟨q, hq, hkq⟩ := List.mem_map.mp hk
    have hsome : (lastWith Prod.fst p.1 (newBatch new)).isSome :=
      lastWith_isSome hq hkq
    rw [lastWith_append_right _ hsome] at hlast
    exact lastWith_mem hlast
  · intro k
    constructor
    · intro hk
      obtain ⟨a, ha, hka⟩ := List.mem_map.mp hk
      obtain ⟨r, hr⟩ := Option.isSome_iff_exists.mp
        (@lastWith_isSome _ _ _ Prod.fst _ _ _ ha hka)
      obtain ⟨hmem, hkey⟩ := mem_dedupLast_of_lastWith hr
      exact List.mem_map.mpr ⟨r, hmem, hkey⟩
    · intro hk
      obtain ⟨a, ha, hka⟩ := List.mem_map.mp hk
      exact List.mem_map.mpr ⟨a, mem_of_mem_dedupLast ha, hka⟩
  · intro q hq
    exact firstWith_of_mem_dedupFirst hq

/-- Witness for C7: the old archive holds a row with identifier `"2"` and
the fresh batch holds another; the merged archive's row under `"2"` is the
fresh one. -/
theorem update_archive_spec_witness :
    (some "2", wNew2) ∈ newBatch [wNew2] :=
  (update_archive_spec (some [wOld2]) [wNew2]).2.2.1 (some "2", wNew2)
    (by decide) (by decide)

/-- C8: whenever `update_archive_file` uploads (the fetched batch was
non-empty), the `added_count` it logs is exactly the merged archive's row
count minus the old archive's row count, as a plain integer subtraction,
and the logged total is the merged row count; the subtraction is not
clamped — with an old archive of two rows sharing one identifier and a
one-row fetch of the same identifier, the logged `added_count` is -1. -/
theorem added_count_spec :
    (∀ (oldCsv : Option (List Event)) (new : List Event)
        (res : List ArchiveRow × Int × Nat),
      update_archive_result oldCsv new = some res →
      res.2.1 = (res.1.length : Int) - ((oldRows oldCsv).length : Int) ∧
      res.2.2 = res.1.length) ∧
    (∃ m : List ArchiveRow, ∃ added : Int, ∃ total : Nat,
      update_archive_result (some [wOld2, wOld2b]) [wNew2] = some (m, added, total) ∧
      added = -1) := by
  constructor
  · intro oldCsv new res h
    unfold update_archive_result at h
    by_cases he : new.isEmpty
    · rw [if_pos he] at h
      cases h
    · rw [if_neg he] at h
      injection h with h
      subst h
      exact ⟨rfl, rfl⟩
  · exact ⟨_, _, _, rfl, by decide⟩

/-- Witness for C8: applying the logging formula to the concrete shrinking
update above: the merged archive has one row, the old archive had two, so
the logged count is their difference. -/
theorem added_count_spec_witness :
    ((mergedArchive (some [wOld2, wOld2b]) [wNew2]).length : Int) -
        ((oldRows (some [wOld2, wOld2b])).length : Int) =
      ((mergedArchive (some [wOld2, wOld2b]) [wNew2]).length : Int) -
        ((oldRows (some [wOld2, wOld2b])).length : Int) ∧
    ((mergedArchive (some [wOld2, wOld2b]) [wNew2]).length : Int) -
        ((oldRows (some [wOld2, wOld2b])).length : Int) = -1 :=
  ⟨(added_count_spec.1 (some [wOld2, wOld2b]) [wNew2] _ rfl).1, by decide⟩

/-- C2 (counterexample to the claim as stated): with only the duration
filter active and a record lacking `started_at`, the pipeline does not
exclude the record — `e['started_at']` raises a `KeyError` (the date and
scope filters check key presence, the duration filter does not), so the
pipeline does not complete normally. -/
theorem applyFilters_keyerror :
    applyFilters [wNoStart] [] [] ["3日以内"] [] = Except.error () := rfl

/-- C2 (amended): whenever the filter pipeline completes, every surviving
record satisfies each active dimension with the required field present —
records missing a field required by an active start-date, end-date or
audience-scope filter are excluded by those filters.  But the duration
dimension reads `started_at`/`ended_at` unconditionally: the pipeline
raises (`Except.error`) exactly when a duration filter is selected and some
record surviving the date filters lacks one of the two timestamps, instead
of excluding such a record. -/
theorem applyFilters_spec (events : List Event) (selStart selEnd : List Int)
    (selDur : List String) (selTar : List Bool) :
    (∀ out, applyFilters events selStart selEnd selDur selTar = Except.ok out →
      ∀ e ∈ out,
        (selStart ≠ [] → ∃ t, e.started_at = some t ∧ jstDate t ∈ selStart) ∧
        (selEnd ≠ [] → ∃ t, e.ended_at = some t ∧ jstDate t ∈ selEnd) ∧
        (selDur ≠ [] → ∃ ts te, e.started_at = some ts ∧ e.ended_at = some te ∧
          get_duration_category ts te ∈ selDur) ∧
        (selTar ≠ [] → ∃ b, e.is_entry_scope_inner = some b ∧ b ∈ selTar)) ∧
    (applyFilters events selStart selEnd selDur selTar = Except.error () ↔
      selDur ≠ [] ∧ ∃ e ∈ dateFiltered events selStart selEnd,
        ¬(e.started_at.isSome = true ∧ e.ended_at.isSome = true)) := by
  by_cases hdur : selDur.isEmpty
  · have hDurNil : selDur = [] := List.isEmpty_iff.mp hdur
    have hchar : applyFilters events selStart selEnd selDur selTar =
        Except.ok (if selTar.isEmpty then dateFiltered events selStart selEnd
          else (dateFiltered events selStart selEnd).filter (matchesTarget selTar)) := by
      simp [applyFilters, hdur]
    constructor
    · intro out hout e he
      rw [hchar] at hout
      injection hout with hout
      subst hout
      by_cases htar : selTar.isEmpty
      · rw [if_pos htar] at he
        obtain ⟨hev, hS, hE⟩ := mem_dateFiltered he
        exact ⟨fun hne => matchesStartDate_spec (hS hne),
          fun hne => matchesEndDate_spec (hE hne),
          fun hne => absurd hDurNil hne,
          fun hne => absurd (List.isEmpty_iff.mp htar) hne⟩
      · rw [if_neg htar] at he
        obtain ⟨he2, hT⟩ := List.mem_filter.mp he
        obtain ⟨hev, hS, hE⟩ := mem_dateFiltered he2
        exact ⟨fun hne => matchesStartDate_spec (hS hne),
          fun hne => matchesEndDate_spec (hE hne),
          fun hne => absurd hDurNil hne,
          fun _ => matchesTarget_spec hT⟩
    · constructor
      · intro h
        rw [hchar] at h
        exact Except.noConfusion h
      · rintro ⟨hne, -⟩
        exact absurd hDurNil hne
  · have hDurNe : selDur ≠ [] := by
      intro hc
      rw [hc] at hdur
      exact hdur rfl
    cases hall : (dateFiltered events selStart selEnd).all
        (fun e => e.started_at.isSome && e.ended_at.isSome) with
    | true =>
      have hstep : durationStep selDur (dateFiltered events selStart selEnd) =
          Except.ok ((dateFiltered events selStart selEnd).filter (durMatch selDur)) := by
        simp [durationStep, hall]
      have hchar : applyFilters events selStart selEnd selDur selTar =
          Except.ok (if selTar.isEmpty
            then (dateFiltered events selStart selEnd).filter (durMatch selDur)
            else ((dateFiltered events selStart selEnd).filter
              (durMatch selDur)).filter (matchesTarget selTar)) := by
        simp [applyFilters, hdur, hstep]
      constructor
      · intro out hout e he
        rw [hchar] at hout
        injection hout with hout
        subst hout
        by_cases htar : selTar.isEmpty
        · rw [if_pos htar] at he
          obtain ⟨he2, hD⟩ := List.mem_filter.mp he
          obtain ⟨hev, hS, hE⟩ := mem_dateFiltered he2
          exact ⟨fun hne => matchesStartDate_spec (hS hne),
            fun hne => matchesEndDate_spec (hE hne),
            fun _ => durMatch_spec hD,
            fun hne => absurd (List.isEmpty_iff.mp htar) hne⟩
        · rw [if_neg htar] at he
          obtain ⟨he3, hT⟩ := List.mem_filter.mp he
          obtain ⟨he2, hD⟩ := List.mem_filter.mp he3
          obtain ⟨hev, hS, hE⟩ := mem_dateFiltered he2
          exact ⟨fun hne => matchesStartDate_spec (hS hne),
            fun hne => matchesEndDate_spec (hE hne),
            fun _ => durMatch_spec hD,
            fun _ => matchesTarget_spec hT⟩
      · constructor
        · intro h
          rw [hchar] at h
          exact Except.noConfusion h
        · rintro ⟨-, e, he, hmiss⟩
          have hm := List.all_eq_true.mp hall e he
          rw [Bool.and_eq_true] at hm
          exact absurd hm hmiss
    | false =>
      have hchar : applyFilters events selStart selEnd selDur selTar =
          Except.error () := by
        simp [applyFilters, durationStep, hdur, hall]
      constructor
      · intro out hout e he
        rw [hchar] at hout
        exact Except.noConfusion hout
      · constructor
        · intro _
          obtain ⟨e, he, hcond⟩ := List.all_eq_false.mp hall
          refine ⟨hDurNe, e, he, ?_⟩
          simp only [Bool.and_eq_true] at hcond
          exact hcond
        · intro _
          exact hchar

/-- Witness for C2 (amended): with a start-date filter for the epoch day
active, the surviving record indeed has a `started_at` landing on that
day. -/
theorem applyFilters_spec_witness :
    ∃ t, wFull.started_at = some t ∧ jstDate t ∈ [(0 : Int)] :=
  (((applyFilters_spec [wFull] [0] [] [] []).1 [wFull] (by rfl)) wFull
    (by simp)).1 (by decide)

end SrEventList
